import Mathlib

/-!
# FirstDrive: LinearInterp and the AI driving controller

A shallow embedding of `src/linearinterp.h` and of the parts of
`src/ai/ai_car_standard.h` that carry state or contracts, with the properties
proved about them.

* `std::vector <std::pair <T, T> >` is a `List (T × T)`. The definitions are
  those of the template: `T` is any type with the arithmetic and comparisons
  the code uses. The theorems in exact arithmetic take `T` a linearly ordered
  field; `FloatValue` stands for a floating `T` with its infinities and NaN.
* The `mutable` slope cache of `LinearInterp` makes `Interpolate` a state
  transformer: it returns the value together with the object afterwards.
* An `assert` that fails, a vector read outside the vector and a loop that
  does not finish are results of their own (`Fault`).
* `size_t` arithmetic is done in `Nat`; the embedding is of vectors shorter
  than `2 ^ 53`, where `size_t ((high + low) / 2.0)` is the floor of the half sum.
-/

namespace FirstDrive

/-! ## linearinterp.h -/

/-- The ways a call can end without a value. -/
inductive Fault where
  | assertSize
  | assertDiff
  | outOfRange
  | loopFuel
  deriving DecidableEq, Repr

/-- The enum `LinearInterp::BoundaryEnum`. -/
inductive BoundaryEnum where
  | CONSTANTSLOPE
  | CONSTANTVALUE
  deriving DecidableEq, Repr

/-- The data members of `LinearInterp <T>`. -/
structure LinearInterp (T : Type) where
  points : List (T × T)
  first_slope : T
  last_slope : T
  slopes_calculated : Bool
  mode : BoundaryEnum
  empty_value : T

/-- The values of a floating-point `T` such as `double`, with rounding left
out: NaN, an infinity with its sign, or a finite rational. The two zeros of
IEEE 754 are one zero, taken as positive. -/
inductive FloatValue where
  | nan
  | inf (negative : Bool)
  | fin (q : ℚ)
  deriving DecidableEq

namespace FloatValue

/-- The IEEE 754 negation. -/
def neg : FloatValue → FloatValue
  | nan => nan
  | inf s => inf (!s)
  | fin q => fin (-q)

/-- The IEEE 754 sum: infinities of opposite sign add up to NaN. -/
def add : FloatValue → FloatValue → FloatValue
  | nan, _ => nan
  | _, nan => nan
  | inf s, inf t => if s = t then inf s else nan
  | inf s, fin _ => inf s
  | fin _, inf t => inf t
  | fin a, fin b => fin (a + b)

/-- The IEEE 754 difference: an infinity minus itself is NaN. -/
def sub (a b : FloatValue) : FloatValue := add a (neg b)

/-- The IEEE 754 product: an infinity times zero is NaN. -/
def mul : FloatValue → FloatValue → FloatValue
  | nan, _ => nan
  | _, nan => nan
  | inf s, inf t => inf (xor s t)
  | inf s, fin b => if b = 0 then nan else inf (xor s (decide (b < 0)))
  | fin a, inf t => if a = 0 then nan else inf (xor (decide (a < 0)) t)
  | fin a, fin b => fin (a * b)

/-- The IEEE 754 quotient: zero over zero and infinity over infinity are NaN,
another finite value over zero is an infinity. -/
def div : FloatValue → FloatValue → FloatValue
  | nan, _ => nan
  | _, nan => nan
  | inf _, inf _ => nan
  | inf s, fin b => inf (xor s (decide (b < 0)))
  | fin _, inf _ => fin 0
  | fin a, fin b =>
    if b = 0 then (if a = 0 then nan else inf (decide (a < 0))) else fin (a / b)

/-- The IEEE 754 comparison `<`: false as soon as one side is NaN. -/
def lt : FloatValue → FloatValue → Bool
  | nan, _ => false
  | _, nan => false
  | inf s, inf t => s && !t
  | inf s, fin _ => s
  | fin _, inf t => !t
  | fin a, fin b => decide (a < b)

/-- The IEEE 754 comparison `<=`: false as soon as one side is NaN. -/
def le : FloatValue → FloatValue → Bool
  | nan, _ => false
  | _, nan => false
  | inf s, inf t => s || !t
  | inf s, fin _ => s
  | fin _, inf t => !t
  | fin a, fin b => decide (a ≤ b)

instance : Zero FloatValue := ⟨fin 0⟩

instance : Add FloatValue := ⟨add⟩

instance : Sub FloatValue := ⟨sub⟩

instance : Mul FloatValue := ⟨mul⟩

instance : Div FloatValue := ⟨div⟩

instance : LT FloatValue := ⟨fun a b => lt a b = true⟩

instance : LE FloatValue := ⟨fun a b => le a b = true⟩

instance (a b : FloatValue) : Decidable (a < b) :=
  inferInstanceAs (Decidable (lt a b = true))

instance (a b : FloatValue) : Decidable (a ≤ b) :=
  inferInstanceAs (Decidable (le a b = true))

end FloatValue

namespace LinearInterp

variable {T : Type} [Zero T] [Add T] [Sub T] [Mul T] [Div T] [LT T] [LE T]
  [∀ a b : T, Decidable (a < b)] [∀ a b : T, Decidable (a ≤ b)]

/-- The read `points [i]`; outside the vector it is a fault. -/
def pointAt (points : List (T × T)) (i : Nat) : Except Fault (T × T) :=
  match points[i]? with
  | some p => .ok p
  | none => .error .outOfRange

/-- The constructor `LinearInterp(T empty_value_)`. -/
def create (empty_value_ : T) : LinearInterp T :=
  { points := [], first_slope := 0, last_slope := 0, slopes_calculated := false,
    mode := .CONSTANTVALUE, empty_value := empty_value_ }

/-- The constructor `LinearInterp()`. -/
def createDefault : LinearInterp T :=
  { points := [], first_slope := 0, last_slope := 0, slopes_calculated := false,
    mode := .CONSTANTVALUE, empty_value := 0 }

/-- The private method `Calculate`. -/
def Calculate (s : LinearInterp T) : Except Fault (LinearInterp T) :=
  let n := s.points.length
  if n > 1 then do
    let p0 ← pointAt s.points 0
    let p1 ← pointAt s.points 1
    let q0 ← pointAt s.points (n - 2)
    let q1 ← pointAt s.points (n - 1)
    .ok { s with
      first_slope := (p1.2 - p0.2) / (p1.1 - p0.1)
      last_slope := (q1.2 - q0.2) / (q1.1 - q0.1)
      slopes_calculated := true }
  else .error .assertSize

/-- The method `Clear`. -/
def Clear (s : LinearInterp T) : LinearInterp T :=
  { s with points := [], slopes_calculated := false }

/-- Modelled from the spec: the comparator `PairSortFirst` of `pairsort.h`, a header
that is not among the sources; it orders pairs by their first component, which
is what the sort of `AddPoint` is used for. -/
def PairSortFirst (a b : T × T) : Bool := decide (a.1 < b.1)

/-- What `std::sort` with `PairSortFirst` guarantees of its output `ps` for the
input `qs`: the same elements, and no element strictly before an earlier
one. The order among equal first components is left open. -/
def SortedBy (qs ps : List (T × T)) : Prop :=
  ps.Perm qs ∧ ps.Pairwise (fun a b => PairSortFirst b a = false)

/-- The method `AddPoint`, with an insertion sort standing for `std::sort`. -/
def AddPoint (s : LinearInterp T) (x y : T) : LinearInterp T :=
  { s with
    points := (s.points ++ [(x, y)]).insertionSort (fun a b => PairSortFirst b a = false)
    slopes_calculated := false }

/-- The method `SetBoundaryMode`. -/
def SetBoundaryMode (s : LinearInterp T) (value : BoundaryEnum) : LinearInterp T :=
  { s with mode := value }

/-- The loop `while ( ( high - low ) > 1 )` of `Interpolate`; one unit of
fuel is spent by each iteration. -/
def bisect (points : List (T × T)) (x : T) : Nat → Nat → Nat → Except Fault (Nat × Nat)
  | fuel, low, high =>
    if high - low > 1 then
      match fuel with
      | 0 => .error .loopFuel
      | fuel + 1 => do
        let index := (high + low) / 2
        let p ← pointAt points index
        if p.1 > x then bisect points x fuel low index
        else bisect points x fuel index high
    else .ok (low, high)

/-- The method `Interpolate`: the value returned and the object afterwards
(the slope cache is `mutable`). -/
def Interpolate (s : LinearInterp T) (x : T) : Except Fault (T × LinearInterp T) :=
  match s.points with
  | [] => .ok (s.empty_value, s)
  | [p] => .ok (p.2, s)
  | _ => do
    let s ← (if s.slopes_calculated then .ok s else Calculate s)
    let low := 0
    let high := s.points.length - 1
    let ph ← pointAt s.points high
    if x > ph.1 then
      if s.mode = .CONSTANTSLOPE then .ok (ph.2 + s.last_slope * (x - ph.1), s)
      else .ok (ph.2, s)
    else do
      let pl ← pointAt s.points low
      if x < pl.1 then
        if s.mode = .CONSTANTSLOPE then .ok (pl.2 + s.first_slope * (x - pl.1), s)
        else .ok (pl.2, s)
      else do
        let (low, high) ← bisect s.points x (high - low) low high
        let ph ← pointAt s.points high
        let pl ← pointAt s.points low
        let diff := ph.1 - pl.1
        if diff ≥ 0 then
          let diffy := ph.2 - pl.2
          .ok (diffy * (x - pl.1) / diff + pl.2, s)
        else .error .assertDiff

/-- The objects a program can hold: built by a constructor with empty value
`e`, then changed by the public methods. `std::sort` may leave equal first
components in any order. -/
inductive Reachable (e : T) : LinearInterp T → Prop where
  | create : Reachable e (create e)
  | Clear {s : LinearInterp T} : Reachable e s → Reachable e (Clear s)
  | AddPoint {s : LinearInterp T} (x y : T) (ps : List (T × T)) :
      Reachable e s → SortedBy (s.points ++ [(x, y)]) ps →
      Reachable e { s with points := ps, slopes_calculated := false }
  | SetBoundaryMode {s : LinearInterp T} (value : BoundaryEnum) :
      Reachable e s → Reachable e (SetBoundaryMode s value)
  | Interpolate {s s1 : LinearInterp T} (x v : T) :
      Reachable e s → Interpolate s x = .ok (v, s1) → Reachable e s1

/-- An object with three points, added out of order. -/
def threePoints : LinearInterp ℚ :=
  AddPoint (AddPoint (AddPoint (create 7) 0 0) 2 2) 1 5

/-- The object after a call `Interpolate(x)` whose value is not used. -/
def afterInterpolate (s : LinearInterp T) (x : T) : LinearInterp T :=
  match Interpolate s x with
  | .ok (_, s1) => s1
  | .error _ => s

/-- Two points in CONSTANTSLOPE mode, an `Interpolate` call that fills the
slope cache, and then a third point between the two. -/
def cachedThenAdded : LinearInterp ℚ :=
  AddPoint (afterInterpolate
    (SetBoundaryMode (AddPoint (AddPoint (create 7) 0 0) 2 2) .CONSTANTSLOPE) 5) 1 5

/-- Two points with the same x, added one after the other to a new object. -/
def duplicateX : LinearInterp ℚ :=
  AddPoint (AddPoint (create 0) 1 2) 1 3

/-- The slope cache, when marked valid, holds the slopes of the points held now. -/
def CacheOK (s : LinearInterp T) : Prop :=
  s.slopes_calculated = true →
    ∀ p0 p1 q0 q1 : T × T, s.points[0]? = some p0 → s.points[1]? = some p1 →
      s.points[s.points.length - 2]? = some q0 → s.points[s.points.length - 1]? = some q1 →
      s.first_slope = (p1.2 - p0.2) / (p1.1 - p0.1) ∧
      s.last_slope = (q1.2 - q0.2) / (q1.1 - q0.1)

end LinearInterp

/-! ## ai/ai_car_standard.h -/

/-- The struct `AiCarStandard::OtherCarInfo`. -/
structure OtherCarInfo (R : Type) where
  horizontal_distance : R
  fore_distance : R
  eta : R
  active : Bool

/-- The data members of `AiCarStandard`. A `float` or `double` is a value of
the ordered field `R`; a `const Bezier *` is an optional patch number and a
`const CarDynamics *` a car number. -/
structure AiCarStandard (R : Type) where
  longitude_mu : R
  lateral_mu : R
  last_patch : Option Nat
  use_racingline : Bool
  is_recovering : Bool
  recover_time : R
  MAX_SPEED : R
  idxP : Int
  idxNCP : Int
  NumPatches : Int
  prevPatch : Option Nat
  last_steer : R
  othercars : List (Nat × OtherCarInfo R)

/-- What one frame hands to the recovery controller: the elapsed time, the
current patch when there is one, and whether the recovery trigger holds. -/
structure Frame (R : Type) where
  dt : R
  patch : Option Nat
  trigger : Bool

namespace AiCarStandard

variable {R : Type} [LinearOrderedField R]

/-- A controller at rest on patch 0, with a speed cap of 50. -/
def idleCar (R : Type) [LinearOrderedField R] : AiCarStandard R :=
  { longitude_mu := 1, lateral_mu := 1, last_patch := some 0, use_racingline := false,
    is_recovering := false, recover_time := 0, MAX_SPEED := 50, idxP := 0, idxNCP := 0,
    NumPatches := 1, prevPatch := some 0, last_steer := 0, othercars := [] }

/-- The method `SetMaxSpeed`. -/
def SetMaxSpeed (s : AiCarStandard R) (NewSpeed : R) : AiCarStandard R :=
  { s with MAX_SPEED := NewSpeed }

/-- Modelled from the spec: the body of `CalcBrakeDist`, which the header only
declares. The stopping distance `(current² - allowed²) / (2 * friction * gravity)`,
floored at zero when `allowed_speed ≥ current_speed`. The constant `gravity` of
the formula has no value in the spec and is an argument here. -/
def CalcBrakeDist (gravity current_speed allowed_speed friction : R) : R :=
  if allowed_speed ≥ current_speed then 0
  else (current_speed ^ 2 - allowed_speed ^ 2) / (2 * friction * gravity)

/-- Modelled from the spec: the body of `CalcSpeedLimit`, which the header only
declares. The lateral-grip speed `sqrt (friction * gravity * radius)`, clamped
to the cap `MAX_SPEED`. The effective radius between `patch` and `nextpatch`,
inflated by `extraradius`, is the argument `radius`; the square root of the C
library and the constant `gravity` are arguments as well. -/
def CalcSpeedLimit (sqrt : R → R) (gravity : R) (s : AiCarStandard R)
    (radius friction : R) : R :=
  min (sqrt (friction * gravity * radius)) s.MAX_SPEED

/-- Modelled from the spec: the body of `clamp`, which the header only declares.
The value brought into the range from `min` to `max`. -/
def clamp (val min max : R) : R :=
  if val < min then min else if val > max then max else val

/-- Modelled from the spec: the body of `RateLimit`, which the header only
declares. The new value, with the change from the old value bounded by
`rate_limit_pos` upwards and by `rate_limit_neg` downwards. -/
def RateLimit (old_value new_value rate_limit_pos rate_limit_neg : R) : R :=
  if new_value - old_value > rate_limit_pos then old_value + rate_limit_pos
  else if new_value - old_value < -rate_limit_neg then old_value - rate_limit_neg
  else new_value

/-- Modelled from the spec: the last stage of `UpdateSteer`, which the header
only declares. The steering target, whatever heading error and avoidance bias
gave it, goes through the rate limiter from `last_steer`, with the limits
per unit of time scaled by `dt`, and is then clamped to the legal steering
range; the result is the output of the frame and the next `last_steer`. -/
def UpdateSteer (s : AiCarStandard R) (dt target ratePos rateNeg steerMin steerMax : R) :
    AiCarStandard R :=
  { s with
    last_steer :=
      clamp (RateLimit s.last_steer target (ratePos * dt) (rateNeg * dt)) steerMin steerMax }

/-- Modelled from the spec: the blend of braking demands in `UpdateGasBrake`,
which the header only declares. The brake emitted is the larger of the demand
from track curvature and the demand returned by `BrakeFromOthers`, not their
sum. -/
def UpdateGasBrake (trackDemand avoidanceDemand : R) : R :=
  max trackDemand avoidanceDemand

/-- Modelled from the spec: the body of `Recover`, which the header only
declares. In DRIVING the trigger starts RECOVERING. In RECOVERING the timer
`recover_time` advances by `dt`; the controller goes back to DRIVING, and
resets the timer, when a valid patch is held and the timer has reached
`minDuration`. The result tells whether the controller is recovering. -/
def Recover (minDuration : R) (s : AiCarStandard R) (f : Frame R) :
    Bool × AiCarStandard R :=
  if s.is_recovering then
    if f.patch.isSome ∧ minDuration ≤ s.recover_time + f.dt then
      (false, { s with is_recovering := false, recover_time := 0 })
    else (true, { s with recover_time := s.recover_time + f.dt })
  else if f.trigger then (true, { s with is_recovering := true })
  else (false, s)

/-- The controller after a run of frames through `Recover`. -/
def RecoverRun (minDuration : R) (s : AiCarStandard R) : List (Frame R) → AiCarStandard R
  | [] => s
  | f :: fs => RecoverRun minDuration (Recover minDuration s f).2 fs

/-- A run that ends a first recovery: trigger, two seconds without a patch,
then two more seconds with a patch held. -/
def firstRecovery : List (Frame ℚ) :=
  [⟨1 / 60, none, true⟩, ⟨2, none, false⟩, ⟨2, some 0, false⟩]

end AiCarStandard

/-! ## Theorems: linearinterp.h -/

namespace LinearInterp

theorem pointAt_of_lt {T : Type} (ps : List (T × T)) (i : Nat) (h : i < ps.length) :
    pointAt ps i = .ok ps[i] := by
  simp [pointAt, List.getElem?_eq_getElem h]

variable {T : Type} [LinearOrderedField T]

theorem Calculate_ok (s : LinearInterp T) (hn : 2 ≤ s.points.length) :
    ∃ s1, Calculate s = .ok s1 ∧ s1.points = s.points ∧ s1.mode = s.mode ∧
      s1.empty_value = s.empty_value ∧ s1.slopes_calculated = true ∧ CacheOK s1 := by
  have h0 : 0 < s.points.length := by omega
  have h1 : 1 < s.points.length := by omega
  have h2 : s.points.length - 2 < s.points.length := by omega
  have h3 : s.points.length - 1 < s.points.length := by omega
  refine ⟨{ s with
      first_slope := (s.points[1].2 - s.points[0].2) / (s.points[1].1 - s.points[0].1)
      last_slope := (s.points[s.points.length - 1].2 - s.points[s.points.length - 2].2) /
        (s.points[s.points.length - 1].1 - s.points[s.points.length - 2].1)
      slopes_calculated := true }, ?_, ?_⟩
  · unfold Calculate
    simp only [gt_iff_lt, h1, if_true, pointAt_of_lt _ _ h0, pointAt_of_lt _ _ h1,
      pointAt_of_lt _ _ h2, pointAt_of_lt _ _ h3, bind, Except.bind]
  · refine ⟨rfl, rfl, rfl, rfl, ?_⟩
    intro _ p0 p1 q0 q1 e0 e1 e2 e3
    simp only [List.getElem?_eq_getElem h0, List.getElem?_eq_getElem h1,
      List.getElem?_eq_getElem h2, List.getElem?_eq_getElem h3, Option.some.injEq] at e0 e1 e2 e3
    subst e0 e1 e2 e3
    exact ⟨rfl, rfl⟩

theorem prepare_ok (s : LinearInterp T) (hn : 2 ≤ s.points.length) (hc : CacheOK s) :
    ∃ s1, (if s.slopes_calculated = true then Except.ok s else Calculate s) = .ok s1 ∧
      s1.points = s.points ∧ s1.mode = s.mode ∧
      s1.empty_value = s.empty_value ∧ s1.slopes_calculated = true ∧ CacheOK s1 := by
  by_cases h : s.slopes_calculated = true
  · exact ⟨s, by simp [h], rfl, rfl, rfl, h, hc⟩
  · simpa [h] using Calculate_ok s hn

theorem Interpolate_above (s : LinearInterp T) (hn : 2 ≤ s.points.length) (hc : CacheOK s)
    (q0 q1 : T × T) (e0 : s.points[s.points.length - 2]? = some q0)
    (e1 : s.points[s.points.length - 1]? = some q1) (x : T) (hx : q1.1 < x) :
    ∃ s1, Interpolate s x = .ok
      (if s.mode = .CONSTANTSLOPE then q1.2 + (q1.2 - q0.2) / (q1.1 - q0.1) * (x - q1.1)
        else q1.2, s1) ∧ s1.points = s.points ∧ s1.mode = s.mode ∧
        s1.empty_value = s.empty_value ∧ CacheOK s1 := by
  obtain ⟨s1, hp, hpts, hm, he, hsc, hc1⟩ := prepare_ok s hn hc
  refine ⟨s1, ?_, hpts, hm, he, hc1⟩
  have h0 : 0 < s.points.length := by omega
  have h1 : 1 < s.points.length := by omega
  have hl := (hc1 hsc s.points[0] s.points[1] q0 q1 (by simp [hpts, h0])
    (by simp [hpts, h1]) (by simpa [hpts] using e0) (by simpa [hpts] using e1)).2
  unfold Interpolate
  split
  · rename_i h; simp [h] at hn
  · rename_i h; simp [h] at hn
  · rw [hp]
    simp only [bind, Except.bind, hpts, pointAt, e1, gt_iff_lt, hx, if_true, hm, hl]
    split <;> rfl

theorem bisect_spec (ps : List (T × T)) (x : T) :
    ∀ (fuel low high : Nat) (hlh : low < high) (hh : high < ps.length),
      high - low ≤ fuel + 1 → ps[low].1 ≤ x →
      (high = ps.length - 1 ∨ x < ps[high].1) →
      ∃ l, ∃ hl : l + 1 < ps.length,
        bisect ps x fuel low high = .ok (l, l + 1) ∧ low ≤ l ∧ l + 1 ≤ high ∧
        ps[l].1 ≤ x ∧ (l + 1 = ps.length - 1 ∨ x < ps[l + 1].1) := by
  intro fuel
  induction fuel with
  | zero =>
    intro low high hlh hh hf hlo hhi
    have hE : high = low + 1 := by omega
    subst hE
    refine ⟨low, hh, ?_, le_refl _, le_refl _, hlo, hhi⟩
    unfold bisect
    simp
  | succ fuel ih =>
    intro low high hlh hh hf hlo hhi
    by_cases hgap : high - low > 1
    · have hi1 : low < (high + low) / 2 := by omega
      have hi2 : (high + low) / 2 < high := by omega
      have hi3 : (high + low) / 2 < ps.length := by omega
      unfold bisect
      simp only [hgap, if_true, pointAt_of_lt ps _ hi3]
      by_cases hc : ps[(high + low) / 2].1 > x
      · obtain ⟨l, hl, hb, h1, h2, h3, h4⟩ :=
          ih low ((high + low) / 2) hi1 hi3 (by omega) hlo (Or.inr hc)
        refine ⟨l, hl, ?_, h1, by omega, h3, h4⟩
        simpa [bind, Except.bind, hc] using hb
      · obtain ⟨l, hl, hb, h1, h2, h3, h4⟩ :=
          ih ((high + low) / 2) high hi2 hh (by omega) (not_lt.mp hc) hhi
        refine ⟨l, hl, ?_, by omega, h2, h3, h4⟩
        simpa [bind, Except.bind, hc] using hb
    · have hE : high = low + 1 := by omega
      subst hE
      refine ⟨low, hh, ?_, le_refl _, le_refl _, hlo, hhi⟩
      unfold bisect
      simp

theorem sorted_getElem_le (ps : List (T × T)) (hs : ps.Pairwise (fun a b => a.1 ≤ b.1))
    (i j : Nat) (hij : i ≤ j) (hj : j < ps.length) : ps[i].1 ≤ ps[j].1 := by
  rcases Nat.eq_or_lt_of_le hij with h | h
  · subst h; exact le_refl _
  · exact (List.pairwise_iff_getElem.mp hs) i j (by omega) hj h

theorem Interpolate_below (s : LinearInterp T) (hn : 2 ≤ s.points.length) (hc : CacheOK s)
    (hs : s.points.Pairwise (fun a b => a.1 ≤ b.1))
    (p0 p1 : T × T) (e0 : s.points[0]? = some p0) (e1 : s.points[1]? = some p1)
    (x : T) (hx : x < p0.1) :
    ∃ s1, Interpolate s x = .ok
      (if s.mode = .CONSTANTSLOPE then p0.2 + (p1.2 - p0.2) / (p1.1 - p0.1) * (x - p0.1)
        else p0.2, s1) ∧ s1.points = s.points ∧ s1.mode = s.mode ∧
        s1.empty_value = s.empty_value ∧ CacheOK s1 := by
  obtain ⟨s1, hp, hpts, hm, he, hsc, hc1⟩ := prepare_ok s hn hc
  refine ⟨s1, ?_, hpts, hm, he, hc1⟩
  have h0 : 0 < s.points.length := by omega
  have h2 : s.points.length - 2 < s.points.length := by omega
  have h3 : s.points.length - 1 < s.points.length := by omega
  have hf := (hc1 hsc p0 p1 s.points[s.points.length - 2] s.points[s.points.length - 1]
    (by simpa [hpts] using e0) (by simpa [hpts] using e1) (by simp [hpts, h2])
    (by simp [hpts, h3])).1
  have hp0 : p0 = s.points[0] := by
    rw [List.getElem?_eq_getElem h0] at e0; exact (Option.some.inj e0).symm
  have hle : ¬ s.points[s.points.length - 1].1 < x := by
    have := sorted_getElem_le s.points hs 0 (s.points.length - 1) (Nat.zero_le _) h3
    rw [← hp0] at this
    exact not_lt.mpr (le_trans (le_of_lt hx) this)
  unfold Interpolate
  split
  · rename_i h; simp [h] at hn
  · rename_i h; simp [h] at hn
  · rw [hp]
    simp only [bind, Except.bind, hpts, pointAt, List.getElem?_eq_getElem h3, gt_iff_lt, hle,
      if_false, e0, hx, if_true, hm, hf]
    split <;> rfl

theorem Interpolate_inrange (s : LinearInterp T) (hn : 2 ≤ s.points.length) (hc : CacheOK s)
    (hs : s.points.Pairwise (fun a b => a.1 ≤ b.1))
    (x : T) (hlo : s.points[0].1 ≤ x) (hhi : x ≤ s.points[s.points.length - 1].1) :
    ∃ l, ∃ hl : l + 1 < s.points.length, ∃ s1,
      bisect s.points x (s.points.length - 1 - 0) 0 (s.points.length - 1) = .ok (l, l + 1) ∧
      s.points[l].1 ≤ x ∧ x ≤ s.points[l + 1].1 ∧
      (l + 1 = s.points.length - 1 ∨ x < s.points[l + 1].1) ∧
      Interpolate s x = .ok
        ((s.points[l + 1].2 - s.points[l].2) * (x - s.points[l].1) /
          (s.points[l + 1].1 - s.points[l].1) + s.points[l].2, s1) ∧
      s1.points = s.points ∧ s1.mode = s.mode ∧ s1.empty_value = s.empty_value ∧
      CacheOK s1 := by
  obtain ⟨s1, hp, hpts, hm, he, hsc, hc1⟩ := prepare_ok s hn hc
  have h0 : 0 < s.points.length := by omega
  have h3 : s.points.length - 1 < s.points.length := by omega
  obtain ⟨l, hl, hb, -, -, hxl, hxh⟩ := bisect_spec s.points x (s.points.length - 1 - 0) 0
    (s.points.length - 1) (by omega) h3 (by omega) hlo (Or.inl rfl)
  have hxh2 : x ≤ s.points[l + 1].1 := by
    rcases hxh with h | h
    · have : s.points[l + 1] = s.points[s.points.length - 1] := by simp only [h]
      rw [this]; exact hhi
    · exact le_of_lt h
  refine ⟨l, hl, s1, hb, hxl, hxh2, hxh, ?_, hpts, hm, he, hc1⟩
  have hd : s.points[l + 1].1 - s.points[l].1 ≥ 0 :=
    sub_nonneg.mpr (sorted_getElem_le s.points hs l (l + 1) (Nat.le_succ l) hl)
  unfold Interpolate
  split
  · rename_i h; simp [h] at hn
  · rename_i h; simp [h] at hn
  · rw [hp]
    simp only [bind, Except.bind, hpts, pointAt_of_lt _ _ h3, pointAt_of_lt _ _ h0, gt_iff_lt,
      not_lt.mpr hhi, not_lt.mpr hlo, if_false, hb, pointAt_of_lt _ _ hl,
      pointAt_of_lt _ _ (Nat.lt_of_succ_lt hl), hd, if_true]

theorem SortedBy_pairwise_le {qs ps : List (T × T)} (h : SortedBy qs ps) :
    ps.Pairwise (fun a b => a.1 ≤ b.1) := by
  refine h.2.imp ?_
  intro a b hab
  simpa [PairSortFirst] using hab

theorem SortedBy_insertionSort (qs : List (T × T)) :
    SortedBy qs (qs.insertionSort (fun a b => PairSortFirst b a = false)) := by
  refine ⟨List.perm_insertionSort _ qs, ?_⟩
  have : IsTotal (T × T) (fun a b => PairSortFirst b a = false) :=
    ⟨fun a b => by simpa [PairSortFirst] using le_total a.1 b.1⟩
  have : IsTrans (T × T) (fun a b => PairSortFirst b a = false) :=
    ⟨fun a b c => by simpa [PairSortFirst] using fun h1 h2 => le_trans h1 h2⟩
  exact List.sorted_insertionSort _ qs

theorem Reachable_AddPoint {e : T} {s : LinearInterp T} (h : Reachable e s) (x y : T) :
    Reachable e (AddPoint s x y) :=
  Reachable.AddPoint x y _ h (SortedBy_insertionSort _)

theorem Interpolate_keeps (s : LinearInterp T) (hc : CacheOK s)
    (hs : s.points.Pairwise (fun a b => a.1 ≤ b.1)) (x v : T) (s1 : LinearInterp T)
    (h : Interpolate s x = .ok (v, s1)) :
    s1.points = s.points ∧ s1.mode = s.mode ∧ s1.empty_value = s.empty_value ∧ CacheOK s1 := by
  by_cases hn : 2 ≤ s.points.length
  · have h0 : 0 < s.points.length := by omega
    have h1 : 1 < s.points.length := by omega
    have h2 : s.points.length - 2 < s.points.length := by omega
    have h3 : s.points.length - 1 < s.points.length := by omega
    by_cases ha : s.points[s.points.length - 1].1 < x
    · obtain ⟨s2, hi, r⟩ := Interpolate_above s hn hc _ _ (List.getElem?_eq_getElem h2)
        (List.getElem?_eq_getElem h3) x ha
      rw [hi] at h
      cases h; exact r
    · by_cases hb : x < s.points[0].1
      · obtain ⟨s2, hi, r⟩ := Interpolate_below s hn hc hs _ _ (List.getElem?_eq_getElem h0)
          (List.getElem?_eq_getElem h1) x hb
        rw [hi] at h
        cases h; exact r
      · obtain ⟨l, hl, s2, -, -, -, -, hi, r⟩ :=
          Interpolate_inrange s hn hc hs x (not_lt.mp hb) (not_lt.mp ha)
        rw [hi] at h
        cases h; exact r
  · unfold Interpolate at h
    split at h
    · cases h; exact ⟨rfl, rfl, rfl, hc⟩
    · cases h; exact ⟨rfl, rfl, rfl, hc⟩
    · rename_i h1 h2
      exfalso
      match hps : s.points with
      | [] => exact h1 hps
      | [p] => exact h2 p hps
      | _ :: _ :: _ => simp [hps] at hn

theorem Reachable_inv {e : T} {s : LinearInterp T} (h : Reachable e s) :
    s.empty_value = e ∧ s.points.Pairwise (fun a b => a.1 ≤ b.1) ∧ CacheOK s := by
  induction h with
  | create => exact ⟨rfl, List.Pairwise.nil, fun h => by simp [create] at h⟩
  | Clear _ ih => exact ⟨ih.1, List.Pairwise.nil, fun h => by simp [Clear] at h⟩
  | AddPoint x y ps _ hsort ih =>
    exact ⟨ih.1, SortedBy_pairwise_le hsort, fun h => by simp at h⟩
  | SetBoundaryMode value _ ih => exact ⟨ih.1, ih.2.1, ih.2.2⟩
  | Interpolate x v _ hi ih =>
    obtain ⟨hp, -, he, hc⟩ := Interpolate_keeps _ ih.2.2 ih.2.1 x v _ hi
    exact ⟨he.trans ih.1, hp ▸ ih.2.1, hc⟩

theorem strict_of_nodup (ps : List (T × T)) (hs : ps.Pairwise (fun a b => a.1 ≤ b.1))
    (hd : (ps.map Prod.fst).Nodup) : ps.Pairwise (fun a b => a.1 < b.1) := by
  have hne : ps.Pairwise (fun a b => a.1 ≠ b.1) := by
    simpa [List.Nodup, List.pairwise_map] using hd
  exact (hs.and hne).imp (fun h => lt_of_le_of_ne h.1 h.2)

theorem Reachable_threePoints : Reachable 7 threePoints :=
  Reachable_AddPoint (Reachable_AddPoint (Reachable_AddPoint Reachable.create 0 0) 2 2) 1 5

theorem Reachable_afterInterpolate {e : T} {s : LinearInterp T} (h : Reachable e s) (x : T) :
    Reachable e (afterInterpolate s x) := by
  unfold afterInterpolate
  split
  · rename_i v s1 hi
    exact Reachable.Interpolate x v h hi
  · exact h

theorem Reachable_cachedThenAdded : Reachable 7 cachedThenAdded :=
  Reachable_AddPoint (Reachable_afterInterpolate (Reachable.SetBoundaryMode .CONSTANTSLOPE
    (Reachable_AddPoint (Reachable_AddPoint Reachable.create 0 0) 2 2)) 5) 1 5

theorem cachedThenAdded_eq : cachedThenAdded =
    { points := [(0, 0), (1, 5), (2, 2)], first_slope := 1, last_slope := 1,
      slopes_calculated := false, mode := .CONSTANTSLOPE, empty_value := 7 } := by
  simp [cachedThenAdded, afterInterpolate, Interpolate, SetBoundaryMode, AddPoint, create,
    Calculate, pointAt, PairSortFirst, bind, Except.bind]
  norm_num

/-- C1: `Interpolate` on an in-range value. For an object holding at least two
points with pairwise distinct x (stored strictly increasing by the sort of
`AddPoint`), in either boundary mode, and `x` between the first and the last
stored x: the bisection loop ends with `high = low + 1` and
`points[low].first ≤ x ≤ points[high].first`, the call returns
`y_low + (y_high - y_low) * (x - x_low) / (x_high - x_low)`, and `low` is the
only index `i ≤ n - 2` with `x_i ≤ x < x_(i+1)`, or `n - 2` when `x` is the last x. -/
theorem Interpolate_in_range_value (e : T) (s : LinearInterp T) (hr : Reachable e s)
    (hn : 2 ≤ s.points.length) (hd : (s.points.map Prod.fst).Nodup)
    (p0 pn : T × T) (e0 : s.points[0]? = some p0)
    (en : s.points[s.points.length - 1]? = some pn)
    (x : T) (hlo : p0.1 ≤ x) (hhi : x ≤ pn.1) :
    s.points.Pairwise (fun a b => a.1 < b.1) ∧
    ∃ (low : Nat) (pl ph : T × T) (s1 : LinearInterp T),
      low ≤ s.points.length - 2 ∧
      s.points[low]? = some pl ∧ s.points[low + 1]? = some ph ∧
      bisect s.points x (s.points.length - 1 - 0) 0 (s.points.length - 1) = .ok (low, low + 1) ∧
      pl.1 ≤ x ∧ x ≤ ph.1 ∧
      Interpolate s x = .ok (pl.2 + (ph.2 - pl.2) * (x - pl.1) / (ph.1 - pl.1), s1) ∧
      (x < pn.1 → x < ph.1) ∧ (x = pn.1 → low = s.points.length - 2) ∧
      (∀ (i : Nat) (pi pj : T × T), i ≤ s.points.length - 2 → s.points[i]? = some pi →
        s.points[i + 1]? = some pj → pi.1 ≤ x → x < pj.1 → i = low) := by
  obtain ⟨-, hs, hc⟩ := Reachable_inv hr
  have hst := strict_of_nodup s.points hs hd
  have h0 : 0 < s.points.length := by omega
  have h3 : s.points.length - 1 < s.points.length := by omega
  rw [List.getElem?_eq_getElem h0] at e0
  rw [List.getElem?_eq_getElem h3] at en
  cases e0; cases en
  obtain ⟨l, hl, s1, hb, hxl, hxh, hdis, hi, -⟩ := Interpolate_inrange s hn hc hs x hlo hhi
  have hl0 : l < s.points.length := Nat.lt_of_succ_lt hl
  have hlt : x < s.points[s.points.length - 1].1 → x < s.points[l + 1].1 := by
    intro hx
    rcases hdis with h | h
    · have : s.points[l + 1] = s.points[s.points.length - 1] := by simp only [h]
      rw [this]; exact hx
    · exact h
  refine ⟨hst, l, s.points[l], s.points[l + 1], s1, by omega, List.getElem?_eq_getElem hl0,
    List.getElem?_eq_getElem hl, hb, hxl, hxh, ?_, hlt, ?_, ?_⟩
  · rw [hi, add_comm]
  · intro hx
    rcases hdis with h | h
    · omega
    · exfalso
      have := sorted_getElem_le s.points hs (l + 1) (s.points.length - 1) (by omega) h3
      rw [hx] at h
      exact absurd h (not_lt.mpr this)
  · intro i pi pj hi2 ei ej hxi hxj
    have hi1 : i + 1 < s.points.length := by omega
    rw [List.getElem?_eq_getElem (Nat.lt_of_succ_lt hi1)] at ei
    rw [List.getElem?_eq_getElem hi1] at ej
    cases ei; cases ej
    have hxl1 : x < s.points[l + 1].1 :=
      hlt (lt_of_lt_of_le hxj (sorted_getElem_le s.points hs (i + 1) _ (by omega) h3))
    by_contra hne
    rcases Nat.lt_or_gt_of_ne hne with h | h
    · have := sorted_getElem_le s.points hs (i + 1) l (by omega) hl0
      exact absurd (lt_of_lt_of_le hxj (le_trans this hxl)) (lt_irrefl _)
    · have := sorted_getElem_le s.points hs (l + 1) i (by omega) (Nat.lt_of_succ_lt hi1)
      exact absurd (lt_of_lt_of_le hxl1 (le_trans this hxi)) (lt_irrefl _)

theorem Interpolate_in_range_value_witness :
    threePoints.points.Pairwise
      (fun a b => a.1 < b.1) ∧
    ∃ (low : Nat) (pl ph : ℚ × ℚ) (s1 : LinearInterp ℚ),
      low ≤ threePoints.points.length - 2 ∧
      threePoints.points[low]? = some pl ∧
      threePoints.points[low + 1]? = some ph ∧
      bisect threePoints.points (3 / 2)
        (threePoints.points.length - 1 - 0) 0
        (threePoints.points.length - 1)
        = .ok (low, low + 1) ∧
      pl.1 ≤ 3 / 2 ∧ 3 / 2 ≤ ph.1 ∧
      Interpolate threePoints (3 / 2)
        = .ok (pl.2 + (ph.2 - pl.2) * (3 / 2 - pl.1) / (ph.1 - pl.1), s1) ∧
      ((3 / 2 : ℚ) < (2, 2).1 → 3 / 2 < ph.1) ∧
      ((3 / 2 : ℚ) = (2, 2).1 →
        low = threePoints.points.length - 2) ∧
      (∀ (i : Nat) (pi pj : ℚ × ℚ),
        i ≤ threePoints.points.length - 2 →
        threePoints.points[i]? = some pi →
        threePoints.points[i + 1]? = some pj →
        pi.1 ≤ 3 / 2 → 3 / 2 < pj.1 → i = low) :=
  Interpolate_in_range_value 7 threePoints
    Reachable_threePoints
    (by simp [threePoints, AddPoint, create, PairSortFirst])
    (by simp [threePoints, AddPoint, create, PairSortFirst])
    (0, 0) (2, 2)
    (by simp [threePoints, AddPoint, create, PairSortFirst])
    (by simp [threePoints, AddPoint, create, PairSortFirst])
    (3 / 2) (by norm_num) (by norm_num)

theorem eq_of_fst_eq {T : Type} (ps : List (T × T)) (hd : (ps.map Prod.fst).Nodup) (p q : T × T)
    (hp : p ∈ ps) (hq : q ∈ ps) (h : p.1 = q.1) : p = q :=
  List.inj_on_of_nodup_map hd hp hq h

theorem mem_fst_le_last (ps : List (T × T)) (hs : ps.Pairwise (fun a b => a.1 ≤ b.1))
    (h3 : ps.length - 1 < ps.length) (p : T × T) (hp : p ∈ ps) :
    p.1 ≤ ps[ps.length - 1].1 := by
  obtain ⟨i, hi, rfl⟩ := List.getElem_of_mem hp
  exact sorted_getElem_le ps hs i _ (by omega) h3

theorem first_fst_le_mem (ps : List (T × T)) (hs : ps.Pairwise (fun a b => a.1 ≤ b.1))
    (h0 : 0 < ps.length) (p : T × T) (hp : p ∈ ps) : ps[0].1 ≤ p.1 := by
  obtain ⟨i, hi, rfl⟩ := List.getElem_of_mem hp
  exact sorted_getElem_le ps hs 0 i (Nat.zero_le _) hi

/-- C2: CONSTANTVALUE, the mode both constructors set. For an object holding at
least two points with pairwise distinct x: for every `x` above the largest x
held, `Interpolate` returns the y of the point with the largest x, and for
every `x` below the smallest x held, the y of the point with the smallest x. -/
theorem Interpolate_constant_value (e : T) (s : LinearInterp T) (hr : Reachable e s)
    (hm : s.mode = .CONSTANTVALUE) (hn : 2 ≤ s.points.length)
    (hd : (s.points.map Prod.fst).Nodup)
    (pmax : T × T) (hpmax : pmax ∈ s.points) (hmax : ∀ q ∈ s.points, q.1 ≤ pmax.1)
    (x : T) (hx : pmax.1 < x)
    (pmin : T × T) (hpmin : pmin ∈ s.points) (hmin : ∀ q ∈ s.points, pmin.1 ≤ q.1)
    (z : T) (hz : z < pmin.1) :
    (create e).mode = .CONSTANTVALUE ∧ (createDefault : LinearInterp T).mode = .CONSTANTVALUE ∧
    (∃ s1, Interpolate s x = .ok (pmax.2, s1)) ∧
    (∃ s1, Interpolate s z = .ok (pmin.2, s1)) := by
  obtain ⟨-, hs, hc⟩ := Reachable_inv hr
  have h0 : 0 < s.points.length := by omega
  have h1 : 1 < s.points.length := by omega
  have h2 : s.points.length - 2 < s.points.length := by omega
  have h3 : s.points.length - 1 < s.points.length := by omega
  refine ⟨rfl, rfl, ?_, ?_⟩
  · have hpl : pmax = s.points[s.points.length - 1] :=
      eq_of_fst_eq s.points hd _ _ hpmax (List.getElem_mem h3)
        (le_antisymm (mem_fst_le_last s.points hs h3 pmax hpmax) (hmax _ (List.getElem_mem h3)))
    obtain ⟨s1, hi, -⟩ := Interpolate_above s hn hc _ _ (List.getElem?_eq_getElem h2)
      (List.getElem?_eq_getElem h3) x (hpl ▸ hx)
    refine ⟨s1, ?_⟩
    rw [hi, hpl]
    simp [hm]
  · have hpl : pmin = s.points[0] :=
      eq_of_fst_eq s.points hd _ _ hpmin (List.getElem_mem h0)
        (le_antisymm (hmin _ (List.getElem_mem h0)) (first_fst_le_mem s.points hs h0 pmin hpmin))
    obtain ⟨s1, hi, -⟩ := Interpolate_below s hn hc hs _ _ (List.getElem?_eq_getElem h0)
      (List.getElem?_eq_getElem h1) z (hpl ▸ hz)
    refine ⟨s1, ?_⟩
    rw [hi, hpl]
    simp [hm]

theorem Interpolate_constant_value_witness :
    (create (7 : ℚ)).mode = .CONSTANTVALUE ∧
    (createDefault : LinearInterp ℚ).mode = .CONSTANTVALUE ∧
    (∃ s1, Interpolate threePoints 3 = .ok (((2, 2) : ℚ × ℚ).2, s1)) ∧
    (∃ s1, Interpolate threePoints (-1) = .ok (((0, 0) : ℚ × ℚ).2, s1)) :=
  Interpolate_constant_value 7 threePoints Reachable_threePoints rfl
    (by simp [threePoints, AddPoint, create, PairSortFirst])
    (by simp [threePoints, AddPoint, create, PairSortFirst])
    (2, 2) (by simp [threePoints, AddPoint, create, PairSortFirst])
    (by simp [threePoints, AddPoint, create, PairSortFirst])
    3 (by norm_num)
    (0, 0) (by simp [threePoints, AddPoint, create, PairSortFirst])
    (by simp [threePoints, AddPoint, create, PairSortFirst])
    (-1) (by norm_num)

/-- C3: CONSTANTSLOPE, the mode `SetBoundaryMode(CONSTANTSLOPE)` sets. For an
object holding at least two points with pairwise distinct x, stored strictly
increasing, whatever calls came before: above the last x, `Interpolate` returns
`y_(n-1) + ((y_(n-1) - y_(n-2)) / (x_(n-1) - x_(n-2))) * (x - x_(n-1))`, and below
the first x, `y_0 + ((y_1 - y_0) / (x_1 - x_0)) * (x - x_0)`. -/
theorem Interpolate_constant_slope (e : T) (s : LinearInterp T) (hr : Reachable e s)
    (hm : s.mode = .CONSTANTSLOPE) (hn : 2 ≤ s.points.length)
    (hd : (s.points.map Prod.fst).Nodup)
    (p0 p1 pa pb : T × T) (e0 : s.points[0]? = some p0) (e1 : s.points[1]? = some p1)
    (ea : s.points[s.points.length - 2]? = some pa)
    (eb : s.points[s.points.length - 1]? = some pb)
    (x : T) (hx : pb.1 < x) (z : T) (hz : z < p0.1) :
    (∀ t : LinearInterp T, (SetBoundaryMode t .CONSTANTSLOPE).mode = .CONSTANTSLOPE ∧
      (SetBoundaryMode t .CONSTANTSLOPE).points = t.points) ∧
    s.points.Pairwise (fun a b => a.1 < b.1) ∧
    (∃ s1, Interpolate s x =
      .ok (pb.2 + ((pb.2 - pa.2) / (pb.1 - pa.1)) * (x - pb.1), s1)) ∧
    (∃ s1, Interpolate s z =
      .ok (p0.2 + ((p1.2 - p0.2) / (p1.1 - p0.1)) * (z - p0.1), s1)) := by
  obtain ⟨-, hs, hc⟩ := Reachable_inv hr
  refine ⟨fun t => ⟨rfl, rfl⟩, strict_of_nodup _ hs hd, ?_, ?_⟩
  · obtain ⟨s1, hi, -⟩ := Interpolate_above _ hn hc pa pb ea eb x hx
    exact ⟨s1, by rw [hi]; simp [hm]⟩
  · obtain ⟨s1, hi, -⟩ := Interpolate_below _ hn hc hs p0 p1 e0 e1 z hz
    exact ⟨s1, by rw [hi]; simp [hm]⟩

theorem Interpolate_constant_slope_witness :
    (∀ t : LinearInterp ℚ, (SetBoundaryMode t .CONSTANTSLOPE).mode = .CONSTANTSLOPE ∧
      (SetBoundaryMode t .CONSTANTSLOPE).points = t.points) ∧
    cachedThenAdded.points.Pairwise (fun a b => a.1 < b.1) ∧
    (∃ s1, Interpolate cachedThenAdded 4 =
      .ok (((2, 2) : ℚ × ℚ).2 + ((((2, 2) : ℚ × ℚ).2 - ((1, 5) : ℚ × ℚ).2) /
        (((2, 2) : ℚ × ℚ).1 - ((1, 5) : ℚ × ℚ).1)) * (4 - ((2, 2) : ℚ × ℚ).1), s1)) ∧
    (∃ s1, Interpolate cachedThenAdded (-1) =
      .ok (((0, 0) : ℚ × ℚ).2 + ((((1, 5) : ℚ × ℚ).2 - ((0, 0) : ℚ × ℚ).2) /
        (((1, 5) : ℚ × ℚ).1 - ((0, 0) : ℚ × ℚ).1)) * (-1 - ((0, 0) : ℚ × ℚ).1), s1)) :=
  Interpolate_constant_slope 7 cachedThenAdded Reachable_cachedThenAdded
    (by simp [cachedThenAdded_eq]) (by simp [cachedThenAdded_eq])
    (by simp [cachedThenAdded_eq])
    (0, 0) (1, 5) (1, 5) (2, 2)
    (by simp [cachedThenAdded_eq]) (by simp [cachedThenAdded_eq])
    (by simp [cachedThenAdded_eq]) (by simp [cachedThenAdded_eq])
    4 (by norm_num) (-1) (by norm_num)

/-- C4: an object that holds no points, built with `LinearInterp(e)` (and
`LinearInterp()` is `LinearInterp(0)`), returns `e` from `Interpolate` for every
`x` and in either mode; no points are held after a constructor or after
`Clear`. -/
theorem Interpolate_no_points (e : T) (s : LinearInterp T) (hr : Reachable e s)
    (hp : s.points = []) (x : T) :
    Interpolate s x = .ok (e, s) ∧ (createDefault : LinearInterp T) = create 0 ∧
    (create e).points = [] ∧ (Clear s).points = [] := by
  refine ⟨?_, rfl, rfl, rfl⟩
  unfold Interpolate
  rw [hp, (Reachable_inv hr).1]

theorem Interpolate_no_points_witness :
    Interpolate (Clear threePoints) 3 = .ok (7, Clear threePoints) ∧
    (createDefault : LinearInterp ℚ) = create 0 ∧
    (create (7 : ℚ)).points = [] ∧ (Clear (Clear threePoints)).points = [] :=
  Interpolate_no_points 7 (Clear threePoints) (Reachable.Clear Reachable_threePoints) rfl 3

theorem Interpolate_returns (s : LinearInterp T) (hc : CacheOK s)
    (hs : s.points.Pairwise (fun a b => a.1 ≤ b.1)) (x : T) :
    ∃ v s1, Interpolate s x = .ok (v, s1) := by
  by_cases hn : 2 ≤ s.points.length
  · have h0 : 0 < s.points.length := by omega
    have h1 : 1 < s.points.length := by omega
    have h2 : s.points.length - 2 < s.points.length := by omega
    have h3 : s.points.length - 1 < s.points.length := by omega
    by_cases ha : s.points[s.points.length - 1].1 < x
    · obtain ⟨s2, hi, -⟩ := Interpolate_above s hn hc _ _ (List.getElem?_eq_getElem h2)
        (List.getElem?_eq_getElem h3) x ha
      exact ⟨_, s2, hi⟩
    · by_cases hb : x < s.points[0].1
      · obtain ⟨s2, hi, -⟩ := Interpolate_below s hn hc hs _ _ (List.getElem?_eq_getElem h0)
          (List.getElem?_eq_getElem h1) x hb
        exact ⟨_, s2, hi⟩
      · obtain ⟨l, hl, s2, -, -, -, -, hi, -⟩ :=
          Interpolate_inrange s hn hc hs x (not_lt.mp hb) (not_lt.mp ha)
        exact ⟨_, s2, hi⟩
  · unfold Interpolate
    split
    · exact ⟨_, _, rfl⟩
    · exact ⟨_, _, rfl⟩
    · rename_i h1 h2
      exfalso
      match hps : s.points with
      | [] => exact h1 hps
      | [p] => exact h2 p hps
      | _ :: _ :: _ => simp [hps] at hn

theorem Reachable_duplicateX : Reachable 0 duplicateX :=
  Reachable_AddPoint (Reachable_AddPoint Reachable.create 1 2) 1 3

/-- C11 at a failing input: after `AddPoint(1, 2)` and `AddPoint(1, 3)` on a new
object, two points are held and both have x = 1 however the sort orders them;
for `x = 1` the bisection bracket is `(0, 1)`, `points[high].first` is not
above `points[low].first`, the divisor `diff` is 0, and `assert ( diff >= 0.0 )`
lets the call go on to the division. -/
theorem Interpolate_duplicate_x_zero_divisor :
    Reachable 0 duplicateX ∧
    duplicateX.points = [(1, 2), (1, 3)] ∧
    (∀ ps : List (ℚ × ℚ), SortedBy [(1, 2), (1, 3)] ps → ∀ p ∈ ps, p.1 = 1) ∧
    bisect duplicateX.points 1 (duplicateX.points.length - 1 - 0) 0
      (duplicateX.points.length - 1) = .ok (0, 1) ∧
    pointAt duplicateX.points 1 = .ok (1, 3) ∧ pointAt duplicateX.points 0 = .ok (1, 2) ∧
    ¬ (((1, 3) : ℚ × ℚ).1 > ((1, 2) : ℚ × ℚ).1) ∧
    ((1, 3) : ℚ × ℚ).1 - ((1, 2) : ℚ × ℚ).1 = 0 ∧
    (∃ v s1, Interpolate duplicateX 1 = .ok (v, s1)) := by
  have hp : duplicateX.points = [(1, 2), (1, 3)] := by
    simp [duplicateX, AddPoint, create, PairSortFirst]
  refine ⟨Reachable_duplicateX, hp, ?_, ?_, ?_, ?_, by norm_num, by norm_num, ?_⟩
  · intro ps h p hmem
    have := (h.1.mem_iff).mp hmem
    simp at this
    rcases this with rfl | rfl <;> rfl
  · rw [hp]; simp [bisect]
  · rw [hp]; simp [pointAt]
  · rw [hp]; simp [pointAt]
  · obtain ⟨-, hs, hc⟩ := Reachable_inv Reachable_duplicateX
    exact Interpolate_returns duplicateX hc hs 1

end LinearInterp

/-! ## Theorems: ai/ai_car_standard.h -/

namespace AiCarStandard

/-- C5, as amended: `SetMaxSpeed(NewSpeed)` stores `NewSpeed` as `MAX_SPEED`
whatever its sign, and changes nothing else; the setter neither rejects nor
clamps. -/
theorem SetMaxSpeed_stores_argument {K : Type} (s : AiCarStandard K) (NewSpeed : K) :
    (SetMaxSpeed s NewSpeed).MAX_SPEED = NewSpeed ∧
    SetMaxSpeed s NewSpeed = { s with MAX_SPEED := NewSpeed } :=
  ⟨rfl, rfl⟩

/-- C5, as stated, fails: after `SetMaxSpeed(-1)` on a controller with cap 50
the stored `MAX_SPEED` is the negative value `-1`, neither left unchanged nor
clamped to a value `≥ 0`. -/
theorem SetMaxSpeed_negative_kept :
    ((-1 : ℚ) < 0) ∧ (SetMaxSpeed (idleCar ℚ) (-1)).MAX_SPEED = -1 ∧
    (SetMaxSpeed (idleCar ℚ) (-1)).MAX_SPEED ≠ (idleCar ℚ).MAX_SPEED ∧
    ¬ (0 ≤ (SetMaxSpeed (idleCar ℚ) (-1)).MAX_SPEED) := by
  simp [SetMaxSpeed, idleCar]
  norm_num

variable {R : Type} [LinearOrderedField R]

/-- C6: `CalcBrakeDist` with a positive friction (and a positive gravity
constant): the distance is exactly 0 when the current speed is at most the
allowed speed, and when the current speed is above an allowed speed `≥ 0` it is
`(current² - allowed²) / (2 * friction * gravity)`, which is positive. -/
theorem CalcBrakeDist_value (gravity friction c1 a1 c2 a2 : R)
    (hg : 0 < gravity) (hf : 0 < friction)
    (h1 : c1 ≤ a1) (h2 : a2 < c2) (h0 : 0 ≤ a2) :
    CalcBrakeDist gravity c1 a1 friction = 0 ∧
    CalcBrakeDist gravity c2 a2 friction = (c2 ^ 2 - a2 ^ 2) / (2 * friction * gravity) ∧
    0 < CalcBrakeDist gravity c2 a2 friction := by
  have hv : CalcBrakeDist gravity c2 a2 friction =
      (c2 ^ 2 - a2 ^ 2) / (2 * friction * gravity) := by
    simp [CalcBrakeDist, not_le.mpr h2]
  refine ⟨by simp [CalcBrakeDist, h1], hv, ?_⟩
  rw [hv]
  apply div_pos
  · nlinarith
  · positivity

theorem CalcBrakeDist_value_witness :
    CalcBrakeDist (10 : ℚ) 20 30 1 = 0 ∧
    CalcBrakeDist (10 : ℚ) 30 10 1 = ((30 : ℚ) ^ 2 - 10 ^ 2) / (2 * 1 * 10) ∧
    0 < CalcBrakeDist (10 : ℚ) 30 10 1 :=
  CalcBrakeDist_value (10 : ℚ) 1 20 30 30 10 (by norm_num) (by norm_num) (by norm_num)
    (by norm_num) (by norm_num)

/-- C7: `CalcSpeedLimit`, the value `min (sqrt (friction * gravity * radius))
MAX_SPEED`, for friction and radius `≥ 0` (a square root that is monotone on
the non-negative values, a gravity constant `≥ 0`): it does not decrease when
the friction grows with the radius fixed, nor when the radius grows with the
friction fixed, and it is `MAX_SPEED` whenever the unclamped value exceeds
`MAX_SPEED`. -/
theorem CalcSpeedLimit_monotone (sqrt : R → R) (gravity : R) (s : AiCarStandard R)
    (hsqrt : ∀ a b : R, 0 ≤ a → a ≤ b → sqrt a ≤ sqrt b) (hg : 0 ≤ gravity)
    (radius f1 f2 : R) (hr : 0 ≤ radius) (hf1 : 0 ≤ f1) (hf12 : f1 ≤ f2)
    (friction r1 r2 : R) (hf : 0 ≤ friction) (hr1 : 0 ≤ r1) (hr12 : r1 ≤ r2)
    (r3 f3 : R)
    (hcap : s.MAX_SPEED < sqrt (f3 * gravity * r3)) :
    CalcSpeedLimit sqrt gravity s radius f1 ≤ CalcSpeedLimit sqrt gravity s radius f2 ∧
    CalcSpeedLimit sqrt gravity s r1 friction ≤ CalcSpeedLimit sqrt gravity s r2 friction ∧
    CalcSpeedLimit sqrt gravity s r3 f3 = s.MAX_SPEED := by
  refine ⟨?_, ?_, ?_⟩
  · unfold CalcSpeedLimit
    apply min_le_min _ (le_refl _)
    apply hsqrt
    · positivity
    · exact mul_le_mul_of_nonneg_right (mul_le_mul_of_nonneg_right hf12 hg) hr
  · unfold CalcSpeedLimit
    apply min_le_min _ (le_refl _)
    apply hsqrt
    · positivity
    · exact mul_le_mul_of_nonneg_left hr12 (mul_nonneg hf hg)
  · unfold CalcSpeedLimit
    exact min_eq_right (le_of_lt hcap)

theorem CalcSpeedLimit_monotone_witness :
    CalcSpeedLimit Real.sqrt 10 (idleCar ℝ) 40 (1 / 2) ≤
      CalcSpeedLimit Real.sqrt 10 (idleCar ℝ) 40 1 ∧
    CalcSpeedLimit Real.sqrt 10 (idleCar ℝ) 40 1 ≤
      CalcSpeedLimit Real.sqrt 10 (idleCar ℝ) 90 1 ∧
    CalcSpeedLimit Real.sqrt 10 (idleCar ℝ) 1000 1 = (idleCar ℝ).MAX_SPEED :=
  CalcSpeedLimit_monotone Real.sqrt 10 (idleCar ℝ)
    (fun _ _ _ h => Real.sqrt_le_sqrt h) (by norm_num)
    40 (1 / 2) 1 (by norm_num) (by norm_num) (by norm_num)
    1 40 90 (by norm_num) (by norm_num) (by norm_num)
    1000 1
    (by
      show (50 : ℝ) < Real.sqrt (1 * 10 * 1000)
      rw [Real.lt_sqrt (by norm_num)]
      norm_num)

theorem RateLimit_bounds (old_value new_value rate_limit_pos rate_limit_neg : R)
    (hp : 0 ≤ rate_limit_pos) (hn : 0 ≤ rate_limit_neg) :
    RateLimit old_value new_value rate_limit_pos rate_limit_neg - old_value ≤ rate_limit_pos ∧
    old_value - RateLimit old_value new_value rate_limit_pos rate_limit_neg ≤ rate_limit_neg := by
  unfold RateLimit
  split_ifs with h1 h2
  · constructor <;> linarith
  · constructor <;> linarith
  · constructor <;> linarith

theorem clamp_in_range (val min max : R) (h : min ≤ max) :
    min ≤ clamp val min max ∧ clamp val min max ≤ max := by
  unfold clamp
  split_ifs with h1 h2
  · exact ⟨le_refl _, h⟩
  · exact ⟨h, le_refl _⟩
  · exact ⟨not_lt.mp h1, not_lt.mp h2⟩

theorem clamp_between (val old min max : R) (h1 : min ≤ old) (h2 : old ≤ max) :
    (val ≤ old → val ≤ clamp val min max ∧ clamp val min max ≤ old) ∧
    (old ≤ val → old ≤ clamp val min max ∧ clamp val min max ≤ val) := by
  unfold clamp
  split_ifs with h3 h4
  · exact ⟨fun _ => ⟨le_of_lt h3, h1⟩, fun h => absurd (lt_of_lt_of_le h3 h1) (not_lt.mpr h)⟩
  · exact ⟨fun h => absurd (lt_of_le_of_lt h2 h4) (not_lt.mpr h), fun _ => ⟨h2, le_of_lt h4⟩⟩
  · exact ⟨fun h => ⟨le_refl _, h⟩, fun h => ⟨h, le_refl _⟩⟩

/-- C8: steering rate limiting. One frame of the Steering Controller, from a
previous output `last_steer` inside the legal range, with rate limits and `dt`
that are `≥ 0`: the new output is at most `ratePos * dt` above the previous one
and at most `rateNeg * dt` below it, so the absolute change is within the limit
of its direction, and the new output is inside the legal range. -/
theorem UpdateSteer_rate_limited (s : AiCarStandard R)
    (dt target ratePos rateNeg steerMin steerMax : R)
    (hdt : 0 ≤ dt) (hp : 0 ≤ ratePos) (hn : 0 ≤ rateNeg)
    (hlo : steerMin ≤ s.last_steer) (hhi : s.last_steer ≤ steerMax) :
    (UpdateSteer s dt target ratePos rateNeg steerMin steerMax).last_steer - s.last_steer
      ≤ ratePos * dt ∧
    s.last_steer - (UpdateSteer s dt target ratePos rateNeg steerMin steerMax).last_steer
      ≤ rateNeg * dt ∧
    |(UpdateSteer s dt target ratePos rateNeg steerMin steerMax).last_steer - s.last_steer|
      ≤ (if s.last_steer ≤
            (UpdateSteer s dt target ratePos rateNeg steerMin steerMax).last_steer
          then ratePos * dt else rateNeg * dt) ∧
    steerMin ≤ (UpdateSteer s dt target ratePos rateNeg steerMin steerMax).last_steer ∧
    (UpdateSteer s dt target ratePos rateNeg steerMin steerMax).last_steer ≤ steerMax := by
  have hP : 0 ≤ ratePos * dt := mul_nonneg hp hdt
  have hN : 0 ≤ rateNeg * dt := mul_nonneg hn hdt
  obtain ⟨hr1, hr2⟩ := RateLimit_bounds s.last_steer target (ratePos * dt) (rateNeg * dt) hP hN
  obtain ⟨hc1, hc2⟩ := clamp_in_range
    (RateLimit s.last_steer target (ratePos * dt) (rateNeg * dt)) steerMin steerMax
    (le_trans hlo hhi)
  obtain ⟨hb1, hb2⟩ := clamp_between
    (RateLimit s.last_steer target (ratePos * dt) (rateNeg * dt)) s.last_steer steerMin steerMax
    hlo hhi
  show clamp _ _ _ - _ ≤ _ ∧ _ - clamp _ _ _ ≤ _ ∧
    |clamp _ _ _ - _| ≤ (if _ ≤ clamp _ _ _ then _ else _) ∧ _ ≤ clamp _ _ _ ∧ clamp _ _ _ ≤ _
  have hup : clamp (RateLimit s.last_steer target (ratePos * dt) (rateNeg * dt)) steerMin
      steerMax - s.last_steer ≤ ratePos * dt := by
    rcases le_total (RateLimit s.last_steer target (ratePos * dt) (rateNeg * dt)) s.last_steer
      with h | h
    · linarith [(hb1 h).2]
    · linarith [(hb2 h).2]
  have hdown : s.last_steer - clamp (RateLimit s.last_steer target (ratePos * dt)
      (rateNeg * dt)) steerMin steerMax ≤ rateNeg * dt := by
    rcases le_total (RateLimit s.last_steer target (ratePos * dt) (rateNeg * dt)) s.last_steer
      with h | h
    · linarith [(hb1 h).1]
    · linarith [(hb2 h).1]
  refine ⟨hup, hdown, ?_, hc1, hc2⟩
  split_ifs with h
  · rw [abs_of_nonneg (sub_nonneg.mpr h)]; exact hup
  · rw [abs_of_nonpos (by linarith [not_le.mp h])]; linarith

theorem UpdateSteer_rate_limited_witness :
    (UpdateSteer (idleCar ℚ) (1 / 10) 1 2 3 (-1) 1).last_steer - (idleCar ℚ).last_steer
      ≤ 2 * (1 / 10) ∧
    (idleCar ℚ).last_steer - (UpdateSteer (idleCar ℚ) (1 / 10) 1 2 3 (-1) 1).last_steer
      ≤ 3 * (1 / 10) ∧
    |(UpdateSteer (idleCar ℚ) (1 / 10) 1 2 3 (-1) 1).last_steer - (idleCar ℚ).last_steer|
      ≤ (if (idleCar ℚ).last_steer ≤
            (UpdateSteer (idleCar ℚ) (1 / 10) 1 2 3 (-1) 1).last_steer
          then 2 * (1 / 10) else 3 * (1 / 10)) ∧
    -1 ≤ (UpdateSteer (idleCar ℚ) (1 / 10) 1 2 3 (-1) 1).last_steer ∧
    (UpdateSteer (idleCar ℚ) (1 / 10) 1 2 3 (-1) 1).last_steer ≤ 1 :=
  UpdateSteer_rate_limited (idleCar ℚ) (1 / 10) 1 2 3 (-1) 1 (by norm_num) (by norm_num)
    (by norm_num) (by simp [idleCar]) (by simp [idleCar])

/-- C9: non-additive brake stacking. The brake emitted for a track demand and an
avoidance demand never exceeds the larger of the two, is one of the two, and
is strictly below their sum when both are positive. -/
theorem UpdateGasBrake_not_additive (trackDemand avoidanceDemand t a : R)
    (ht : 0 < t) (ha : 0 < a) :
    UpdateGasBrake trackDemand avoidanceDemand ≤ max trackDemand avoidanceDemand ∧
    (UpdateGasBrake trackDemand avoidanceDemand = trackDemand ∨
      UpdateGasBrake trackDemand avoidanceDemand = avoidanceDemand) ∧
    UpdateGasBrake t a < t + a ∧ UpdateGasBrake t a ≠ t + a := by
  have h : UpdateGasBrake t a < t + a := by
    unfold UpdateGasBrake
    exact max_lt (by linarith) (by linarith)
  refine ⟨le_refl _, ?_, h, ne_of_lt h⟩
  unfold UpdateGasBrake
  rcases le_total trackDemand avoidanceDemand with h1 | h1
  · exact Or.inr (max_eq_right h1)
  · exact Or.inl (max_eq_left h1)

theorem UpdateGasBrake_not_additive_witness :
    UpdateGasBrake (0 : ℚ) (1 / 2) ≤ max (0 : ℚ) (1 / 2) ∧
    (UpdateGasBrake (0 : ℚ) (1 / 2) = 0 ∨ UpdateGasBrake (0 : ℚ) (1 / 2) = 1 / 2) ∧
    UpdateGasBrake (3 / 10 : ℚ) (1 / 2) < 3 / 10 + 1 / 2 ∧
    UpdateGasBrake (3 / 10 : ℚ) (1 / 2) ≠ 3 / 10 + 1 / 2 :=
  UpdateGasBrake_not_additive 0 (1 / 2) (3 / 10) (1 / 2) (by norm_num) (by norm_num)

theorem Recover_stays (minDuration : R) (t : AiCarStandard R) (f : Frame R)
    (ht : t.is_recovering = true) (h : t.recover_time + f.dt < minDuration) :
    (Recover minDuration t f).2.is_recovering = true ∧
    (Recover minDuration t f).2.recover_time = t.recover_time + f.dt ∧
    (Recover minDuration t f).1 = true := by
  simp [Recover, ht, not_le.mpr h]

theorem RecoverRun_stays (minDuration : R) (fs : List (Frame R)) :
    ∀ t : AiCarStandard R, t.is_recovering = true → (∀ f ∈ fs, 0 ≤ f.dt) →
      t.recover_time + (fs.map Frame.dt).sum < minDuration →
      (RecoverRun minDuration t fs).is_recovering = true ∧
      (RecoverRun minDuration t fs).recover_time = t.recover_time + (fs.map Frame.dt).sum := by
  induction fs with
  | nil => intro t ht _ _; simp [RecoverRun, ht]
  | cons f fs ih =>
    intro t ht hdt hsum
    have hnn : 0 ≤ (fs.map Frame.dt).sum :=
      List.sum_nonneg (by
        intro x hx
        obtain ⟨g, hg, rfl⟩ := List.mem_map.mp hx
        exact hdt g (List.mem_cons_of_mem _ hg))
    simp only [List.map_cons, List.sum_cons] at hsum
    obtain ⟨h1, h2, -⟩ := Recover_stays minDuration t f ht (by linarith)
    obtain ⟨h3, h4⟩ := ih (Recover minDuration t f).2 h1
      (fun g hg => hdt g (List.mem_cons_of_mem _ hg)) (by rw [h2]; linarith)
    refine ⟨h3, ?_⟩
    simp only [RecoverRun, List.map_cons, List.sum_cons]
    rw [h4, h2]; ring

theorem sum_take_le (fs : List (Frame R)) (hdt : ∀ f ∈ fs, 0 ≤ f.dt) (k : Nat) :
    ((fs.take k).map Frame.dt).sum ≤ (fs.map Frame.dt).sum := by
  have hnn : 0 ≤ ((fs.drop k).map Frame.dt).sum :=
    List.sum_nonneg (by
      intro x hx
      obtain ⟨g, hg, rfl⟩ := List.mem_map.mp hx
      exact hdt g (List.mem_of_mem_drop hg))
  have : (fs.map Frame.dt).sum =
      ((fs.take k).map Frame.dt).sum + ((fs.drop k).map Frame.dt).sum := by
    rw [← List.sum_append, ← List.map_append, List.take_append_drop]
  linarith

theorem Recover_timer_zero (minDuration : R) (s : AiCarStandard R) (f : Frame R)
    (h : s.is_recovering = false → s.recover_time = 0) :
    (Recover minDuration s f).2.is_recovering = false →
      (Recover minDuration s f).2.recover_time = 0 := by
  unfold Recover
  split_ifs with h1 h2 h3
  · intro _; rfl
  · intro hc; exact absurd (h1.symm.trans hc) (by decide)
  · intro hc; exact absurd hc (by decide)
  · intro _; exact h (by simpa using h1)

theorem RecoverRun_timer_zero (minDuration : R) (fs : List (Frame R)) :
    ∀ s : AiCarStandard R, (s.is_recovering = false → s.recover_time = 0) →
      (RecoverRun minDuration s fs).is_recovering = false →
      (RecoverRun minDuration s fs).recover_time = 0 := by
  induction fs with
  | nil => intro s h; exact h
  | cons f fs ih =>
    intro s h
    exact ih (Recover minDuration s f).2 (Recover_timer_zero minDuration s f h)

theorem RecoverRun_timer_sum (minDuration : R) (gs : List (Frame R)) :
    ∀ t : AiCarStandard R,
      (∀ j ≤ gs.length, (RecoverRun minDuration t (gs.take j)).is_recovering = true) →
      (RecoverRun minDuration t gs).recover_time = t.recover_time + (gs.map Frame.dt).sum := by
  induction gs with
  | nil => intro t _; simp [RecoverRun]
  | cons f gs ih =>
    intro t h
    have ht : t.is_recovering = true := by simpa [RecoverRun] using h 0 (Nat.zero_le _)
    have h1 : (Recover minDuration t f).2.is_recovering = true := by
      simpa [RecoverRun] using h 1 (by simp)
    have h2 : (Recover minDuration t f).2.recover_time = t.recover_time + f.dt := by
      unfold Recover at h1 ⊢
      rw [if_pos ht] at h1 ⊢
      split_ifs at h1 ⊢ with hc
      rfl
    have h3 := ih (Recover minDuration t f).2 (fun j hj => by
      simpa [RecoverRun] using h (j + 1) (by simpa using hj))
    simp only [RecoverRun, List.map_cons, List.sum_cons]
    rw [h3, h2]; ring

theorem Recover_exit (minDuration : R) (t : AiCarStandard R) (g : Frame R)
    (ht : t.is_recovering = true)
    (hexit : (Recover minDuration t g).2.is_recovering = false) :
    g.patch.isSome = true ∧ minDuration ≤ t.recover_time + g.dt := by
  by_contra hcon
  have : (Recover minDuration t g).2.is_recovering = true := by
    simp only [Recover, ht, if_true]
    rw [if_neg hcon]
  rw [this] at hexit
  exact Bool.noConfusion hexit

/-- C10: minimum recovery duration. Take a controller whose timer is zero while
it is DRIVING (as that of a new controller is) and any run of frames that
leaves it DRIVING. Once a trigger has fired the DRIVING to RECOVERING
transition, the controller is RECOVERING after every further frame for as long
as the `dt` of the frames since the trigger add up to less than `minDuration`,
whatever patch those frames hold, and the timer is that sum. And when, after
frames `gs` spent in RECOVERING, a frame `g` takes it back to DRIVING, `g`
holds a valid patch and the `dt` of `gs` and `g` add up to `minDuration` or
more. -/
theorem Recover_minimum_duration (minDuration : R) (s0 : AiCarStandard R)
    (pre : List (Frame R)) (f0 : Frame R) (fs : List (Frame R)) (k : Nat)
    (gs : List (Frame R)) (g : Frame R)
    (hzero : s0.is_recovering = false → s0.recover_time = 0)
    (hd : (RecoverRun minDuration s0 pre).is_recovering = false)
    (htrig : f0.trigger = true)
    (hdt : ∀ f ∈ fs, 0 ≤ f.dt) (hsum : (fs.map Frame.dt).sum < minDuration)
    (hgs : ∀ j ≤ gs.length, (RecoverRun minDuration
      (Recover minDuration (RecoverRun minDuration s0 pre) f0).2 (gs.take j)).is_recovering
        = true)
    (hexit : (Recover minDuration (RecoverRun minDuration
      (Recover minDuration (RecoverRun minDuration s0 pre) f0).2 gs) g).2.is_recovering
        = false) :
    (Recover minDuration (RecoverRun minDuration s0 pre) f0).2.is_recovering = true ∧
    (RecoverRun minDuration (Recover minDuration (RecoverRun minDuration s0 pre) f0).2
      (fs.take k)).is_recovering = true ∧
    (RecoverRun minDuration (Recover minDuration (RecoverRun minDuration s0 pre) f0).2
      (fs.take k)).recover_time = ((fs.take k).map Frame.dt).sum ∧
    (RecoverRun minDuration (Recover minDuration (RecoverRun minDuration s0 pre) f0).2
      gs).recover_time = (gs.map Frame.dt).sum ∧
    g.patch.isSome = true ∧ minDuration ≤ (gs.map Frame.dt).sum + g.dt := by
  have h0 : (RecoverRun minDuration s0 pre).recover_time = 0 :=
    RecoverRun_timer_zero minDuration pre s0 hzero hd
  have h1 : (Recover minDuration (RecoverRun minDuration s0 pre) f0).2.is_recovering = true := by
    simp [Recover, hd, htrig]
  have h2 : (Recover minDuration (RecoverRun minDuration s0 pre) f0).2.recover_time = 0 := by
    simp [Recover, hd, htrig, h0]
  have hle := sum_take_le fs hdt k
  obtain ⟨h3, h4⟩ := RecoverRun_stays minDuration (fs.take k) _ h1
    (fun f hf => hdt f (List.mem_of_mem_take hf)) (by rw [h2]; linarith)
  have h5 := RecoverRun_timer_sum minDuration gs _ hgs
  rw [h2, zero_add] at h4 h5
  have h6 : (RecoverRun minDuration (Recover minDuration (RecoverRun minDuration s0 pre) f0).2
      gs).is_recovering = true := by
    simpa using hgs gs.length (le_refl _)
  have h7 := Recover_exit minDuration _ g h6 hexit
  rw [h5] at h7
  exact ⟨h1, h3, h4, h5, h7⟩

theorem Recover_minimum_duration_witness :
    (Recover (3 : ℚ) (RecoverRun 3 (idleCar ℚ) firstRecovery)
      ⟨1 / 60, none, true⟩).2.is_recovering = true ∧
    (RecoverRun (3 : ℚ) (Recover 3 (RecoverRun 3 (idleCar ℚ) firstRecovery)
      ⟨1 / 60, none, true⟩).2
      (List.take 2 [⟨1, some 0, false⟩, ⟨1, some 0, false⟩])).is_recovering = true ∧
    (RecoverRun (3 : ℚ) (Recover 3 (RecoverRun 3 (idleCar ℚ) firstRecovery)
      ⟨1 / 60, none, true⟩).2
      (List.take 2 [⟨1, some 0, false⟩, ⟨1, some 0, false⟩])).recover_time =
      ((List.take 2 [(⟨1, some 0, false⟩ : Frame ℚ), ⟨1, some 0, false⟩]).map Frame.dt).sum ∧
    (RecoverRun (3 : ℚ) (Recover 3 (RecoverRun 3 (idleCar ℚ) firstRecovery)
      ⟨1 / 60, none, true⟩).2
      [⟨1, some 0, false⟩, ⟨1, some 0, false⟩]).recover_time =
      ([(⟨1, some 0, false⟩ : Frame ℚ), ⟨1, some 0, false⟩].map Frame.dt).sum ∧
    (⟨1, some 0, false⟩ : Frame ℚ).patch.isSome = true ∧
    (3 : ℚ) ≤ ([(⟨1, some 0, false⟩ : Frame ℚ), ⟨1, some 0, false⟩].map Frame.dt).sum +
      (⟨1, some 0, false⟩ : Frame ℚ).dt :=
  Recover_minimum_duration 3 (idleCar ℚ) firstRecovery ⟨1 / 60, none, true⟩
    [⟨1, some 0, false⟩, ⟨1, some 0, false⟩] 2
    [⟨1, some 0, false⟩, ⟨1, some 0, false⟩] ⟨1, some 0, false⟩
    (by simp [idleCar])
    (by simp [firstRecovery, RecoverRun, Recover, idleCar]; norm_num)
    rfl (by simp) (by simp; norm_num)
    (by
      intro j hj
      have hj2 : j ≤ 2 := by simpa using hj
      interval_cases j <;> simp [firstRecovery, RecoverRun, Recover, idleCar] <;> norm_num)
    (by simp [firstRecovery, RecoverRun, Recover, idleCar]; norm_num)

end AiCarStandard

end FirstDrive
